import Mathlib

/-
Shallow embedding of the matching engine of
`scripts/match_listings_to_brands.py` and of the unmatched-for-review
extract of `scripts/aggregate_country_basic.py`.

Modelling conventions:

* Text is `List Char` (Python strings are sequences of code points).
  A value that pandas may hold as NaN is `Option (List Char)`.
* The similarity scores returned by `rapidfuzz.fuzz.ratio`,
  `fuzz.partial_ratio` and `fuzz.token_set_ratio` are IEEE doubles whose
  exact mathematical values are rationals of tiny denominator
  (`200 * LCS / (len1 + len2)` and the token-set variants).  We model them
  as exact rationals built with `mkRat`; on every comparison performed by
  the script the distinctions drawn are far coarser than double precision,
  so the exact-rational model and the double model order scores
  identically.
* `unidecode` transliterates one code point at a time; we model it as an
  arbitrary per-character map `u : Char → List Char`.  The one fact the
  library guarantees that the proofs use is that `u` is the identity on
  the ASCII characters that survive normalization, which appears as an
  explicit hypothesis where it is needed.
* `re.sub(r"[^a-z0-9\s]+", " ", s)` replaces each maximal run of
  disallowed characters by one space, and `re.sub(r"\s+", " ", s)`
  squashes whitespace runs; both are modelled by one-pass state machines
  with a flag remembering whether the previous character belonged to a
  run.  Python's `\s` on ASCII text is the character set
  {space, \t, \n, \r, \v, \f}, modelled by `isPySpace` (after `unidecode`
  the text is ASCII, so the Unicode whitespace cases cannot arise).
-/

namespace ShopeeMatch

/-- Python `str.lower` restricted to ASCII: map `A`–`Z` to `a`–`z`.
(The script lower-cases the output of `unidecode`, which is ASCII.) -/
def pyLowerChar (c : Char) : Char :=
  if 65 ≤ c.toNat ∧ c.toNat ≤ 90 then Char.ofNat (c.toNat + 32) else c

/-- The ASCII whitespace class matched by Python's regex `\s`. -/
def isPySpace (c : Char) : Bool :=
  c.toNat = 32 || c.toNat = 9 || c.toNat = 10 || c.toNat = 13 ||
  c.toNat = 11 || c.toNat = 12

/-- Lower-case ASCII letter. -/
def isLowerAZ (c : Char) : Bool :=
  97 ≤ c.toNat && c.toNat ≤ 122

/-- ASCII digit. -/
def isDigit09 (c : Char) : Bool :=
  48 ≤ c.toNat && c.toNat ≤ 57

/-- A character kept (not replaced by a space) by
`re.sub(r"[^a-z0-9\s]+", " ", s)`. -/
def isKeepChar (c : Char) : Bool :=
  isLowerAZ c || isDigit09 c || isPySpace c

/-- `re.sub(r"[^a-z0-9\s]+", " ", s)`: every maximal run of non-keep
characters becomes a single space.  The flag records whether the previous
character was part of such a run. -/
def subBadRunsAux : Bool → List Char → List Char
  | _, [] => []
  | prevBad, c :: cs =>
    if isKeepChar c then c :: subBadRunsAux false cs
    else if prevBad then subBadRunsAux true cs
    else ' ' :: subBadRunsAux true cs

/-- `re.sub(r"\s+", " ", s)`: every maximal run of whitespace becomes a
single space.  The flag records whether the previous character was
whitespace. -/
def squashWsAux : Bool → List Char → List Char
  | _, [] => []
  | prevWs, c :: cs =>
    if isPySpace c then
      if prevWs then squashWsAux true cs else ' ' :: squashWsAux true cs
    else c :: squashWsAux false cs

/-- Python `str.strip()`: drop leading and trailing whitespace. -/
def pyStrip (l : List Char) : List Char :=
  ((l.dropWhile isPySpace).reverse.dropWhile isPySpace).reverse

/-- `norm` from `match_listings_to_brands.py`:
missing value (`pd.isna`) gives the empty string; otherwise transliterate
(`unidecode`, the per-character map `u`), lower-case, replace runs of
characters outside `[a-z0-9\s]` by a space, squash whitespace, strip. -/
def norm (u : Char → List Char) : Option (List Char) → List Char
  | none => []
  | some s =>
    pyStrip (squashWsAux false (subBadRunsAux false
      ((s.flatMap u).map pyLowerChar)))

/-- `compact` from the script: `s.replace(" ", "") if s else s`. -/
def compact (s : List Char) : List Char :=
  if s = [] then s else s.filter fun c => decide (c ≠ ' ')

/-- One row of the brand reference table (`brand`, `key` columns);
`key` may be blank or missing. -/
structure BrandRow where
  brand : List Char
  key : Option (List Char)
deriving DecidableEq

/-- One entry of the brand keyspace: the brand together with the
normalized and compact forms of one alias key. -/
structure BrandKey where
  brand : List Char
  key_norm : List Char
  key_compact : List Char
deriving DecidableEq

/-- The per-row work of `build_brand_keyspace`:
`key_norm = norm(key.fillna(""))`, `key_compact = compact(key_norm)`. -/
def mkBrandKey (u : Char → List Char) (r : BrandRow) : BrandKey :=
  let kn := norm u (some (r.key.getD []))
  ⟨r.brand, kn, compact kn⟩

/-- The keyspace after the empties filter
`out[(out["key_norm"] != "") & (out["brand"] != "")]` and before
`drop_duplicates`. -/
def keyspacePre (u : Char → List Char) (rows : List BrandRow) : List BrandKey :=
  (rows.map (mkBrandKey u)).filter fun k =>
    decide (k.key_norm ≠ []) && decide (k.brand ≠ [])

/-- `drop_duplicates(subset=["brand", "key_norm"])` with pandas's default
`keep="first"`: keep an entry iff its `(brand, key_norm)` pair has not
been seen before. -/
def dedupAux (seen : List (List Char × List Char)) :
    List BrandKey → List BrandKey
  | [] => []
  | k :: ks =>
    if (k.brand, k.key_norm) ∈ seen then dedupAux seen ks
    else k :: dedupAux ((k.brand, k.key_norm) :: seen) ks

/-- `build_brand_keyspace` from the script: derive normalized/compact
keys, drop rows with empty normalized key or empty brand, deduplicate on
`(brand, key_norm)` keeping the first occurrence. -/
def build_brand_keyspace (u : Char → List Char) (rows : List BrandRow) :
    List BrandKey :=
  dedupAux [] (keyspacePre u rows)

/-- Longest-common-subsequence helper: `lcsAux a f bs` is the LCS length
of `a :: as` and `bs` when `f` computes the LCS length of `as` against
any list.  Structured this way both recursions are structural, so the
kernel can evaluate concrete instances. -/
def lcsAux (a : Char) (f : List Char → Nat) : List Char → Nat
  | [] => 0
  | b :: bs => if a = b then f bs + 1 else max (lcsAux a f bs) (f (b :: bs))

/-- Length of a longest common subsequence of two character lists. -/
def lcsLen : List Char → List Char → Nat
  | [], _ => 0
  | a :: as, bs => lcsAux a (lcsLen as) bs

/-- `rapidfuzz.fuzz.ratio`: the normalized indel similarity, scaled to
0–100.  Indel distance is `len1 + len2 - 2 * LCS`, so the similarity is
`200 * LCS / (len1 + len2)`; two empty strings give 100. -/
def indelSim (a b : List Char) : ℚ :=
  if a.length + b.length = 0 then 100
  else mkRat (200 * lcsLen a b) (a.length + b.length)

/-- The substrings of `hay` that `rapidfuzz`'s `partial_ratio` scores the
needle against, for a needle of length `n` (with `1 ≤ n ≤ hay.length`):
proper prefixes of length `1..n-1`, every window of length `n`, and the
suffixes of length `n..1`.  (The library's character-set skip heuristic
only skips candidates that cannot exceed the running maximum, so it does
not change the value and is not modelled.) -/
def windowStrings (n : Nat) (hay : List Char) : List (List Char) :=
  ((List.range' 1 (n - 1)).map fun i => hay.take i)
    ++ ((List.range (hay.length - n)).map fun i => (hay.drop i).take n)
    ++ ((List.range' (hay.length - n) n).map fun i => hay.drop i)

/-- Maximum of a list of scores, starting from the library's initial
best score 0. -/
def qmax (l : List ℚ) : ℚ := l.foldl max 0

/-- `partial_ratio` after the argument swap, so that `needle` is the
shorter string: the best `fuzz.ratio` between the needle and a candidate
substring of `hay`; an empty side short-circuits to 100 or 0. -/
def windowSimShort (needle hay : List Char) : ℚ :=
  if needle = [] then (if hay = [] then 100 else 0)
  else qmax ((windowStrings needle.length hay).map (indelSim needle))

/-- `rapidfuzz.fuzz.partial_ratio`: slide the shorter string over the
longer one and take the best alignment's `fuzz.ratio`. -/
def windowSim (s1 s2 : List Char) : ℚ :=
  if s1.length ≤ s2.length then windowSimShort s1 s2 else windowSimShort s2 s1

/-- Lexicographic comparison of token strings by code point, Python's
`sorted` order for `str`. -/
def lexLe : List Char → List Char → Bool
  | [], _ => true
  | _ :: _, [] => false
  | a :: as, b :: bs =>
    if a < b then true else if b < a then false else lexLe as bs

/-- Python `str.split()` with no argument: split on whitespace runs,
discarding empty pieces. -/
def pySplit (s : List Char) : List (List Char) :=
  (s.splitOnP isPySpace).filter fun w => decide (w ≠ [])

/-- Insert into a `lexLe`-sorted list of tokens. -/
def insertSorted (x : List Char) : List (List Char) → List (List Char)
  | [] => [x]
  | y :: ys => if lexLe x y then x :: y :: ys else y :: insertSorted x ys

/-- Insertion sort by `lexLe`, Python's `sorted` on a list of strings. -/
def sortTokens : List (List Char) → List (List Char)
  | [] => []
  | x :: xs => insertSorted x (sortTokens xs)

/-- `" ".join(tokens)`. -/
def joinSp (ws : List (List Char)) : List Char := List.intercalate [' '] ws

/-- The `fuzz.ratio` between the joined intersection and the joined
intersection-plus-difference, computed from lengths the way `rapidfuzz`
does: distance `d = bool(sect_len) + diff_len`, length sum
`sect_len + (sect_len + d)`, similarity `100 * (lensum - d) / lensum`. -/
def sectSim (sectLen d : Nat) : ℚ :=
  mkRat (100 * ((sectLen + (sectLen + d)) - d)) (sectLen + (sectLen + d))

/-- `rapidfuzz.fuzz.token_set_ratio`: split both sides into
sorted unique whitespace-separated tokens; if either side has no tokens
the score is 0; if the token intersection is non-empty and one side has
no extra tokens the score is 100; otherwise the best of the
difference-vs-difference `fuzz.ratio` and the two
intersection-vs-intersection-plus-difference ratios. -/
def tokenSetSim (s1 s2 : List Char) : ℚ :=
  let ta := sortTokens (pySplit s1).dedup
  let tb := sortTokens (pySplit s2).dedup
  if ta = [] ∨ tb = [] then 0
  else
    let sect := ta.filter fun w => decide (w ∈ tb)
    let dab := ta.filter fun w => decide (w ∉ tb)
    let dba := tb.filter fun w => decide (w ∉ ta)
    if sect ≠ [] ∧ (dab = [] ∨ dba = []) then 100
    else
      let abJ := joinSp dab
      let baJ := joinSp dba
      let bo : Nat := if (joinSp sect).length = 0 then 0 else 1
      max (indelSim abJ baJ)
        (max (sectSim (joinSp sect).length (bo + abJ.length))
          (sectSim (joinSp sect).length (bo + baJ.length)))

/-- `score_listing_against_key` from the script: the best of
`partial_ratio(list_norm, key_norm)`, `token_set_ratio(list_norm,
key_norm)` and `partial_ratio(list_compact, key_compact)`. -/
def score_listing_against_key (ln lc kn kc : List Char) : ℚ :=
  max (windowSim ln kn) (max (tokenSetSim ln kn) (windowSim lc kc))

/-- The running best of the selector loop:
`best = (brand, score, matched_key_norm)`, initialized
`(None, 0, None)`. -/
structure Best where
  brand : Option (List Char)
  score : ℚ
  key : Option (List Char)
deriving DecidableEq

/-- Python's substring test `needle in hay`. -/
def isSubstr (needle hay : List Char) : Bool :=
  (List.range (hay.length + 1)).any fun i =>
    (hay.drop i).take needle.length == needle

/-- The shortlist: keys whose normalized form is a substring of the
listing's normalized text or whose compact form is a substring of the
listing's compact text. -/
def shortlist (ln lc : List Char) (ks : List BrandKey) : List BrandKey :=
  ks.filter fun k => isSubstr k.key_norm ln || isSubstr k.key_compact lc

/-- One iteration of the selector loop: replace the best triple iff the
candidate's score strictly exceeds the current best score. -/
def stepBest (ln lc : List Char) (b : Best) (k : BrandKey) : Best :=
  let sc := score_listing_against_key ln lc k.key_norm k.key_compact
  if b.score < sc then ⟨some k.brand, sc, some k.key_norm⟩ else b

/-- The selector loop over a candidate list, starting from
`(None, 0, None)`. -/
def bestFold (ln lc : List Char) (cands : List BrandKey) : Best :=
  cands.foldl (stepBest ln lc) ⟨none, 0, none⟩

/-- `candidates = sub if len(sub) else brand_keys`: the shortlist, or the
whole keyspace when the shortlist is empty. -/
def candidates_for (ln lc : List Char) (ks : List BrandKey) : List BrandKey :=
  let sub := shortlist ln lc ks
  if sub = [] then ks else sub

/-- `best_brand` from the script: the selector run over the shortlist
(with fallback to the full keyspace). -/
def best_brand (ln lc : List Char) (ks : List BrandKey) : Best :=
  bestFold ln lc (candidates_for ln lc ks)

/-- Comparison definition for the refinement claim, following the spec's
`best_brand_full_scan`: the same selector run over the whole keyspace
with no shortlisting. -/
def best_brand_full_scan (ln lc : List Char) (ks : List BrandKey) : Best :=
  bestFold ln lc ks

/-- The `"no brand"` sentinel string. -/
def noBrand : List Char := ['n', 'o', ' ', 'b', 'r', 'a', 'n', 'd']

/-- One output record of the matcher:
`Brand (Matched)`, `Match Score`, `Matched Key`. -/
structure MatchResult where
  brand : List Char
  score : ℚ
  key : Option (List Char)
deriving DecidableEq

/-- The emission step of `main`'s matching loop:
`if b is not None and sc >= threshold` append the brand, else append the
`"no brand"` sentinel; the score and matched key are appended
unconditionally. -/
def emit (t : ℚ) (b : Best) : MatchResult :=
  match b.brand with
  | some br => if t ≤ b.score then ⟨br, b.score, b.key⟩ else ⟨noBrand, b.score, b.key⟩
  | none => ⟨noBrand, b.score, b.key⟩

/-- Whether the listing takes `main`'s "matched" branch. -/
def accepted (t : ℚ) (b : Best) : Bool :=
  b.brand.isSome && decide (t ≤ b.score)

/-- The per-listing work of `main`: normalize the (possibly missing)
listing text after `fillna("")`, derive the compact form, select and
emit. -/
def matchOne (u : Char → List Char) (t : ℚ) (ks : List BrandKey)
    (raw : Option (List Char)) : MatchResult :=
  let ln := norm u (some (raw.getD []))
  let lc := compact ln
  emit t (best_brand ln lc ks)

/-- `main`'s matching loop: one `MatchResult` per listing row, in input
order. -/
def matchAll (u : Char → List Char) (t : ℚ) (ks : List BrandKey)
    (rows : List (Option (List Char))) : List MatchResult :=
  rows.map (matchOne u t ks)

/-- A row of the matched CSV as the aggregator sees it, reduced to the
columns the unmatched extract's membership depends on. -/
structure AggRow where
  brand : List Char
  matchScore : ℚ
deriving DecidableEq

/-- Insert into a list sorted by `Match Score` descending. -/
def insertByScore (r : AggRow) : List AggRow → List AggRow
  | [] => [r]
  | y :: ys =>
    if y.matchScore ≤ r.matchScore then r :: y :: ys else y :: insertByScore r ys

/-- `sort_values("Match Score", ascending=False)` (the sort order does
not affect which rows are extracted). -/
def sortByScoreDesc : List AggRow → List AggRow
  | [] => []
  | r :: rs => insertByScore r (sortByScoreDesc rs)

/-- The unmatched-for-review extract of `aggregate_country_basic.py`:
`um = df[df[brand_col].eq("no brand")]`, then sorted by score descending.
(The script also projects to a fixed column subset, which does not change
which rows are present.) -/
def unmatched_extract (rows : List AggRow) : List AggRow :=
  sortByScoreDesc (rows.filter fun r => r.brand == noBrand)

/-- Normalized-character class: lower-case ASCII letter or digit. -/
def isNormChar (c : Char) : Bool := isLowerAZ c || isDigit09 c

/-- The shape `normalize` output is claimed to have: only lower-case
ASCII letters, digits and spaces; no two adjacent spaces; no leading or
trailing space. -/
def NormShape (l : List Char) : Prop :=
  (∀ c ∈ l, isNormChar c = true ∨ c = ' ')
  ∧ l.Chain' (fun a b => ¬(a = ' ' ∧ b = ' '))
  ∧ l.head? ≠ some ' '
  ∧ l.getLast? ≠ some ' '

/-- The identity per-character transliteration, used to instantiate the
theorems at concrete ASCII inputs (`unidecode` is the identity on
ASCII). -/
def uId : Char → List Char := fun c => [c]

/-! ### Score bounds -/

theorem mkRat_nonneg_of (n : Int) (d : Nat) (h : 0 ≤ n) : 0 ≤ mkRat n d := by
  rw [Rat.mkRat_eq_div]
  exact div_nonneg (by exact_mod_cast h) (by positivity)

theorem mkRat_le_hundred (n : Int) (d : Nat) (h : n ≤ 100 * (d : Int)) :
    mkRat n d ≤ 100 := by
  rw [Rat.mkRat_eq_div]
  rcases Nat.eq_zero_or_pos d with hd | hd
  · subst hd
    simp
  · rw [div_le_iff₀ (by exact_mod_cast hd)]
    exact_mod_cast h

theorem lcsLen_le_left : ∀ a b : List Char, lcsLen a b ≤ a.length := by
  intro a
  induction a with
  | nil => intro b; simp [lcsLen]
  | cons x as ih =>
    intro b
    induction b with
    | nil => simp [lcsLen, lcsAux]
    | cons y bs ihb =>
      show lcsAux x (lcsLen as) (y :: bs) ≤ (x :: as).length
      rw [lcsAux]
      by_cases h : x = y
      · simpa [h, List.length_cons] using Nat.succ_le_succ (ih bs)
      · rw [if_neg h]
        exact max_le ihb (Nat.le_trans (ih (y :: bs)) (Nat.le_succ _))

theorem lcsLen_le_right : ∀ a b : List Char, lcsLen a b ≤ b.length := by
  intro a
  induction a with
  | nil => intro b; simp [lcsLen]
  | cons x as ih =>
    intro b
    induction b with
    | nil => simp [lcsLen, lcsAux]
    | cons y bs ihb =>
      show lcsAux x (lcsLen as) (y :: bs) ≤ (y :: bs).length
      rw [lcsAux]
      by_cases h : x = y
      · simpa [h, List.length_cons] using Nat.succ_le_succ (ih bs)
      · rw [if_neg h]
        exact max_le (Nat.le_trans ihb (Nat.le_succ _)) (ih (y :: bs))

theorem lcsLen_self : ∀ l : List Char, lcsLen l l = l.length := by
  intro l
  induction l with
  | nil => rfl
  | cons x xs ih =>
    show lcsAux x (lcsLen xs) (x :: xs) = xs.length + 1
    rw [lcsAux, if_pos rfl, ih]

theorem indelSim_nonneg (a b : List Char) : 0 ≤ indelSim a b := by
  rw [indelSim]
  split_ifs
  · norm_num
  · exact mkRat_nonneg_of _ _ (by positivity)

theorem indelSim_le_hundred (a b : List Char) : indelSim a b ≤ 100 := by
  rw [indelSim]
  split_ifs
  · norm_num
  · apply mkRat_le_hundred
    have h1 := lcsLen_le_left a b
    have h2 := lcsLen_le_right a b
    push_cast
    omega

theorem indelSim_self (a : List Char) : indelSim a a = 100 := by
  rw [indelSim]
  split_ifs with h
  · rfl
  · rw [lcsLen_self, Rat.mkRat_eq_div]
    have hl : a.length ≠ 0 := by omega
    have : ((a.length : Int) : ℚ) ≠ 0 := by exact_mod_cast hl
    rw [div_eq_iff (by push_cast at this ⊢; simpa using this)]
    push_cast
    ring

theorem foldl_max_le {α : Type} (f : α → ℚ) (c : ℚ) :
    ∀ (l : List α) (b : ℚ), b ≤ c → (∀ k ∈ l, f k ≤ c) →
      l.foldl (fun m k => max m (f k)) b ≤ c := by
  intro l
  induction l with
  | nil => intro b hb _; simpa using hb
  | cons x xs ih =>
    intro b hb hl
    exact ih _ (max_le hb (hl x (by simp))) fun k hk => hl k (by simp [hk])

theorem le_foldl_max_init {α : Type} (f : α → ℚ) :
    ∀ (l : List α) (b : ℚ), b ≤ l.foldl (fun m k => max m (f k)) b := by
  intro l
  induction l with
  | nil => intro b; simp
  | cons x xs ih =>
    intro b
    exact le_trans (le_max_left _ _) (ih (max b (f x)))

theorem le_foldl_max_of_mem {α : Type} (f : α → ℚ) {k : α} :
    ∀ (l : List α) (b : ℚ), k ∈ l → f k ≤ l.foldl (fun m k => max m (f k)) b := by
  intro l
  induction l with
  | nil => intro b hk; cases hk
  | cons x xs ih =>
    intro b hk
    rcases List.mem_cons.mp hk with rfl | hk
    · exact le_trans (le_max_right _ _) (le_foldl_max_init f xs _)
    · exact ih _ hk

theorem qmax_map_nonneg {α : Type} (f : α → ℚ) (l : List α) :
    0 ≤ qmax (l.map f) := by
  rw [qmax, List.foldl_map]
  exact le_foldl_max_init f l 0

theorem qmax_map_le_hundred {α : Type} (f : α → ℚ) (l : List α)
    (h : ∀ k ∈ l, f k ≤ 100) : qmax (l.map f) ≤ 100 := by
  rw [qmax, List.foldl_map]
  exact foldl_max_le f 100 l 0 (by norm_num) h

theorem le_qmax_map_of_mem {α : Type} (f : α → ℚ) {k : α} (l : List α)
    (h : k ∈ l) : f k ≤ qmax (l.map f) := by
  rw [qmax, List.foldl_map]
  exact le_foldl_max_of_mem f l 0 h

theorem windowSimShort_nonneg (needle hay : List Char) :
    0 ≤ windowSimShort needle hay := by
  rw [windowSimShort]
  split_ifs
  · norm_num
  · norm_num
  · exact qmax_map_nonneg _ _

theorem windowSimShort_le_hundred (needle hay : List Char) :
    windowSimShort needle hay ≤ 100 := by
  rw [windowSimShort]
  split_ifs
  · norm_num
  · norm_num
  · exact qmax_map_le_hundred _ _ fun w _ => indelSim_le_hundred needle w

theorem windowSim_nonneg (s1 s2 : List Char) : 0 ≤ windowSim s1 s2 := by
  rw [windowSim]
  split_ifs <;> exact windowSimShort_nonneg _ _

theorem windowSim_le_hundred (s1 s2 : List Char) : windowSim s1 s2 ≤ 100 := by
  rw [windowSim]
  split_ifs <;> exact windowSimShort_le_hundred _ _

theorem sectSim_nonneg (s d : Nat) : 0 ≤ sectSim s d :=
  mkRat_nonneg_of _ _ (by omega)

theorem sectSim_le_hundred (s d : Nat) : sectSim s d ≤ 100 := by
  apply mkRat_le_hundred
  push_cast
  omega

theorem tokenSetSim_nonneg (s1 s2 : List Char) : 0 ≤ tokenSetSim s1 s2 := by
  rw [tokenSetSim]
  simp only []
  split_ifs <;>
    first
      | exact le_max_of_le_left (indelSim_nonneg _ _)
      | norm_num

theorem tokenSetSim_le_hundred (s1 s2 : List Char) : tokenSetSim s1 s2 ≤ 100 := by
  rw [tokenSetSim]
  simp only []
  split_ifs <;>
    first
      | exact max_le (indelSim_le_hundred _ _)
          (max_le (sectSim_le_hundred _ _) (sectSim_le_hundred _ _))
      | norm_num

theorem score_nonneg (ln lc kn kc : List Char) :
    0 ≤ score_listing_against_key ln lc kn kc :=
  le_max_of_le_left (windowSim_nonneg ln kn)

theorem score_le_hundred (ln lc kn kc : List Char) :
    score_listing_against_key ln lc kn kc ≤ 100 :=
  max_le (windowSim_le_hundred ln kn)
    (max_le (tokenSetSim_le_hundred ln kn) (windowSim_le_hundred lc kc))

/-! ### Substring-containment gives a perfect window score -/

theorem isSubstr_iff (needle hay : List Char) :
    isSubstr needle hay = true ↔ ∃ pre suf, hay = pre ++ needle ++ suf := by
  rw [isSubstr, List.any_eq_true]
  constructor
  · rintro ⟨i, -, htest⟩
    have heq : (hay.drop i).take needle.length = needle := by
      exact beq_iff_eq.mp htest
    refine ⟨hay.take i, (hay.drop i).drop needle.length, ?_⟩
    calc hay = hay.take i ++ hay.drop i := (List.take_append_drop i hay).symm
      _ = hay.take i ++
          ((hay.drop i).take needle.length ++ (hay.drop i).drop needle.length) := by
            rw [List.take_append_drop needle.length (hay.drop i)]
      _ = hay.take i ++ needle ++ (hay.drop i).drop needle.length := by
            rw [heq, List.append_assoc]
  · rintro ⟨pre, suf, rfl⟩
    refine ⟨pre.length, ?_, ?_⟩
    · simp only [List.mem_range, List.append_assoc, List.length_append]
      omega
    · have h1 : ((pre ++ (needle ++ suf)).drop pre.length) = needle ++ suf :=
        List.drop_left pre (needle ++ suf)
      rw [List.append_assoc, h1, List.take_left]
      exact beq_self_eq_true needle

theorem needle_mem_windowStrings (needle pre suf : List Char)
    (hne : needle ≠ []) :
    needle ∈ windowStrings needle.length (pre ++ needle ++ suf) := by
  have hn : 0 < needle.length := List.length_pos.mpr hne
  have hdrop : ((pre ++ (needle ++ suf)).drop pre.length) = needle ++ suf :=
    List.drop_left pre (needle ++ suf)
  have hlen : (pre ++ needle ++ suf).length =
      pre.length + needle.length + suf.length := by
    simp only [List.length_append]
  rw [windowStrings]
  rcases List.eq_nil_or_concat suf with hsuf | ⟨l, a, hsuf⟩
  · -- no characters after the needle: the needle is the final suffix,
    -- produced by the third loop at start position `pre.length`
    subst hsuf
    refine List.mem_append.mpr (.inr ?_)
    refine List.mem_map.mpr ⟨pre.length, ?_, ?_⟩
    · rw [List.mem_range'_1]
      simp only [List.length_append, List.length_nil]
      omega
    · rw [List.append_assoc, hdrop]
      simp
  · -- otherwise it is one of the full windows of the second loop
    refine List.mem_append.mpr (.inl (List.mem_append.mpr (.inr ?_)))
    refine List.mem_map.mpr ⟨pre.length, ?_, ?_⟩
    · rw [List.mem_range]
      have hs : suf ≠ [] := by rw [hsuf]; simp
      have : 0 < suf.length := List.length_pos.mpr hs
      omega
    · rw [List.append_assoc, hdrop, List.take_left]

theorem windowSimShort_eq_hundred (needle hay : List Char) (hne : needle ≠ [])
    (h : ∃ pre suf, hay = pre ++ needle ++ suf) :
    windowSimShort needle hay = 100 := by
  obtain ⟨pre, suf, rfl⟩ := h
  rw [windowSimShort, if_neg hne]
  apply le_antisymm
  · exact qmax_map_le_hundred _ _ fun w _ => indelSim_le_hundred needle w
  · have hle := le_qmax_map_of_mem (indelSim needle) _
      (needle_mem_windowStrings needle pre suf hne)
    rwa [indelSim_self] at hle

theorem windowSim_eq_hundred (ln kn : List Char) (hne : kn ≠ [])
    (h : ∃ pre suf, ln = pre ++ kn ++ suf) :
    windowSim ln kn = 100 := by
  obtain ⟨pre, suf, hdecomp⟩ := h
  rw [windowSim]
  split_ifs with hl
  · -- equal lengths force `kn = ln`
    have hlen : ln.length = pre.length + kn.length + suf.length := by
      rw [hdecomp]; simp only [List.length_append]
    have hpre : pre = [] := by rw [← List.length_eq_zero]; omega
    have hsuf : suf = [] := by rw [← List.length_eq_zero]; omega
    subst hpre; subst hsuf
    simp only [List.nil_append, List.append_nil] at hdecomp
    subst hdecomp
    exact windowSimShort_eq_hundred ln ln hne ⟨[], [], by simp⟩
  · exact windowSimShort_eq_hundred kn ln hne ⟨pre, suf, hdecomp⟩

theorem score_eq_hundred_of_shortlisted (ln lc : List Char) (k : BrandKey)
    (hkn : k.key_norm ≠ []) (hkc : k.key_compact ≠ [])
    (h : (isSubstr k.key_norm ln || isSubstr k.key_compact lc) = true) :
    score_listing_against_key ln lc k.key_norm k.key_compact = 100 := by
  apply le_antisymm (score_le_hundred ln lc k.key_norm k.key_compact)
  rcases (by simpa using h :
      isSubstr k.key_norm ln = true ∨ isSubstr k.key_compact lc = true) with h1 | h2
  · have hw := windowSim_eq_hundred ln k.key_norm hkn ((isSubstr_iff _ _).mp h1)
    calc (100 : ℚ) = windowSim ln k.key_norm := hw.symm
      _ ≤ _ := le_max_left _ _
  · have hw := windowSim_eq_hundred lc k.key_compact hkc ((isSubstr_iff _ _).mp h2)
    calc (100 : ℚ) = windowSim lc k.key_compact := hw.symm
      _ ≤ _ := le_trans (le_max_right _ _) (le_max_right _ _)

/-! ### The selector loop -/

theorem mem_shortlist {ln lc : List Char} {ks : List BrandKey} {k : BrandKey} :
    k ∈ shortlist ln lc ks ↔
      k ∈ ks ∧ (isSubstr k.key_norm ln || isSubstr k.key_compact lc) = true := by
  rw [shortlist]
  exact List.mem_filter

theorem bestFold_score_eq (ln lc : List Char) :
    ∀ (cands : List BrandKey) (b : Best),
      (cands.foldl (stepBest ln lc) b).score =
        cands.foldl
          (fun m k => max m (score_listing_against_key ln lc k.key_norm k.key_compact))
          b.score := by
  intro cands
  induction cands with
  | nil => intro b; rfl
  | cons k ks ih =>
    intro b
    show ((ks.foldl (stepBest ln lc) (stepBest ln lc b k))).score = _
    rw [ih (stepBest ln lc b k), stepBest]
    by_cases hlt : b.score < score_listing_against_key ln lc k.key_norm k.key_compact
    · rw [if_pos hlt]
      simp only [List.foldl_cons]
      rw [max_eq_right (le_of_lt hlt)]
    · rw [if_neg hlt]
      simp only [List.foldl_cons]
      rw [max_eq_left (le_of_not_lt hlt)]

theorem bestFold_key_none_iff (ln lc : List Char) :
    ∀ (cands : List BrandKey) (b : Best),
      (cands.foldl (stepBest ln lc) b).key = none ↔
        (b.key = none ∧ ∀ k ∈ cands,
          score_listing_against_key ln lc k.key_norm k.key_compact ≤ b.score) := by
  intro cands
  induction cands with
  | nil => intro b; simp
  | cons k ks ih =>
    intro b
    show ((ks.foldl (stepBest ln lc) (stepBest ln lc b k))).key = none ↔ _
    rw [ih (stepBest ln lc b k), stepBest]
    by_cases hlt : b.score < score_listing_against_key ln lc k.key_norm k.key_compact
    · rw [if_pos hlt]
      simp only [List.mem_cons]
      constructor
      · rintro ⟨h, -⟩; cases h
      · rintro ⟨-, hall⟩
        exact absurd (hall k (.inl rfl)) (not_le.mpr hlt)
    · rw [if_neg hlt]
      simp only [List.mem_cons]
      constructor
      · rintro ⟨hk, hall⟩
        exact ⟨hk, fun x hx => hx.elim (fun hxk => hxk ▸ le_of_not_lt hlt)
          (fun hxs => hall x hxs)⟩
      · rintro ⟨hk, hall⟩
        exact ⟨hk, fun x hx => hall x (.inr hx)⟩

theorem foldl_max_eq_hundred {α : Type} (f : α → ℚ) (l : List α) {m : α}
    (hm : m ∈ l) (hfm : f m = 100) (hall : ∀ k ∈ l, f k ≤ 100) :
    l.foldl (fun a k => max a (f k)) 0 = 100 := by
  apply le_antisymm (foldl_max_le f 100 l 0 (by norm_num) hall)
  have hle := le_foldl_max_of_mem f l 0 hm
  rwa [hfm] at hle

theorem best_score_shortlist_eq (ln lc : List Char) (ks : List BrandKey)
    (hks : ∀ k ∈ ks, k.key_norm ≠ [] ∧ k.key_compact ≠ []) :
    (best_brand ln lc ks).score = (best_brand_full_scan ln lc ks).score := by
  rw [best_brand, best_brand_full_scan, candidates_for]
  by_cases hsub : shortlist ln lc ks = []
  · rw [if_pos hsub]
  · rw [if_neg hsub]
    obtain ⟨m, hm⟩ := List.exists_mem_of_ne_nil _ hsub
    have hmks : m ∈ ks := (mem_shortlist.mp hm).1
    have hfm : score_listing_against_key ln lc m.key_norm m.key_compact = 100 :=
      score_eq_hundred_of_shortlisted ln lc m (hks m hmks).1 (hks m hmks).2
        (mem_shortlist.mp hm).2
    have hall : ∀ k : BrandKey,
        score_listing_against_key ln lc k.key_norm k.key_compact ≤ 100 :=
      fun k => score_le_hundred ln lc k.key_norm k.key_compact
    rw [bestFold, bestFold, bestFold_score_eq, bestFold_score_eq]
    have hinit : (⟨none, (0 : ℚ), none⟩ : Best).score = 0 := rfl
    rw [hinit]
    -- make the score function opaque so that unification does not descend
    -- into the similarity definitions
    generalize score_listing_against_key ln lc = f0 at hfm hall ⊢
    have hA := foldl_max_eq_hundred (fun k => f0 k.key_norm k.key_compact)
      (shortlist ln lc ks) hm hfm (fun k _ => hall k)
    have hB := foldl_max_eq_hundred (fun k => f0 k.key_norm k.key_compact)
      ks hmks hfm (fun k _ => hall k)
    exact hA.trans hB.symm

/-! ### Shape of normalized text -/

theorem subBadRunsAux_mem :
    ∀ (l : List Char) (b : Bool) (c : Char),
      c ∈ subBadRunsAux b l → isKeepChar c = true := by
  intro l
  induction l with
  | nil => intro b c hc; cases hc
  | cons x xs ih =>
    intro b c hc
    rw [subBadRunsAux] at hc
    split_ifs at hc with h1 h2
    · rcases List.mem_cons.mp hc with rfl | hc
      · exact h1
      · exact ih false c hc
    · exact ih true c hc
    · rcases List.mem_cons.mp hc with rfl | hc
      · decide
      · exact ih true c hc

theorem squashWsAux_mem :
    ∀ (l : List Char) (b : Bool) (c : Char),
      c ∈ squashWsAux b l → (c ∈ l ∧ isPySpace c = false) ∨ c = ' ' := by
  intro l
  induction l with
  | nil => intro b c hc; cases hc
  | cons x xs ih =>
    intro b c hc
    rw [squashWsAux] at hc
    split_ifs at hc with h1 h2
    · rcases ih true c hc with ⟨hm, hns⟩ | h
      · exact .inl ⟨List.mem_cons.mpr (.inr hm), hns⟩
      · exact .inr h
    · rcases List.mem_cons.mp hc with rfl | hc
      · exact .inr rfl
      · rcases ih true c hc with ⟨hm, hns⟩ | h
        · exact .inl ⟨List.mem_cons.mpr (.inr hm), hns⟩
        · exact .inr h
    · rcases List.mem_cons.mp hc with rfl | hc
      · exact .inl ⟨List.mem_cons.mpr (.inl rfl), Bool.not_eq_true _ ▸ h1⟩
      · rcases ih false c hc with ⟨hm, hns⟩ | h
        · exact .inl ⟨List.mem_cons.mpr (.inr hm), hns⟩
        · exact .inr h

theorem squashWsAux_true_head :
    ∀ (l : List Char) (c : Char),
      (squashWsAux true l).head? = some c → isPySpace c = false := by
  intro l
  induction l with
  | nil => intro c hc; cases hc
  | cons x xs ih =>
    intro c hc
    rw [squashWsAux] at hc
    by_cases h1 : isPySpace x
    · rw [if_pos h1, if_pos rfl] at hc
      exact ih c hc
    · rw [if_neg h1, List.head?_cons, Option.some_inj] at hc
      subst hc
      simp only [Bool.not_eq_true] at h1
      exact h1

theorem squashWsAux_chain' :
    ∀ (l : List Char) (b : Bool),
      (squashWsAux b l).Chain'
        (fun a c => ¬(isPySpace a = true ∧ isPySpace c = true)) := by
  intro l
  induction l with
  | nil => intro b; rw [squashWsAux]; exact List.chain'_nil
  | cons x xs ih =>
    intro b
    rw [squashWsAux]
    split_ifs with h1 h2
    · exact ih true
    · rw [List.chain'_cons']
      refine ⟨?_, ih true⟩
      intro y hy
      rintro ⟨-, hys⟩
      have := squashWsAux_true_head xs y hy
      rw [this] at hys
      cases hys
    · rw [List.chain'_cons']
      refine ⟨?_, ih false⟩
      intro y hy
      rintro ⟨hxs, -⟩
      exact h1 hxs

theorem head?_dropWhile_not (p : Char → Bool) :
    ∀ (l : List Char) (c : Char), (l.dropWhile p).head? = some c → p c = false := by
  intro l
  induction l with
  | nil => intro c hc; cases hc
  | cons x xs ih =>
    intro c hc
    rw [List.dropWhile_cons] at hc
    split_ifs at hc with h1
    · exact ih c hc
    · rw [List.head?_cons, Option.some_inj] at hc
      subst hc
      exact Bool.not_eq_true _ ▸ h1

theorem getLast?_dropWhile (p : Char → Bool) :
    ∀ l : List Char, l.dropWhile p = [] ∨ (l.dropWhile p).getLast? = l.getLast? := by
  intro l
  induction l with
  | nil => exact .inl rfl
  | cons x xs ih =>
    rw [List.dropWhile_cons]
    split_ifs with h1
    · by_cases hxs : xs.dropWhile p = []
      · exact .inl hxs
      · rcases ih with h | h
        · exact absurd h hxs
        · refine .inr ?_
          rw [h]
          have hxsne : xs ≠ [] := by
            intro hx; rw [hx] at hxs; exact hxs rfl
          obtain ⟨y, ys, rfl⟩ := List.exists_cons_of_ne_nil hxsne
          rw [List.getLast?_cons_cons]
    · exact .inr rfl

theorem pyStrip_subset {c : Char} {l : List Char} (hc : c ∈ pyStrip l) : c ∈ l := by
  rw [pyStrip, List.mem_reverse] at hc
  have h1 := (List.dropWhile_sublist _).subset hc
  rw [List.mem_reverse] at h1
  exact (List.dropWhile_sublist _).subset h1

theorem pyStrip_chain' {l : List Char}
    (h : l.Chain' (fun a b => ¬(isPySpace a = true ∧ isPySpace b = true))) :
    (pyStrip l).Chain'
      (fun a b => ¬(isPySpace a = true ∧ isPySpace b = true)) := by
  rw [pyStrip]
  have h1 := h.suffix (List.dropWhile_suffix isPySpace)
  have h2 : ((l.dropWhile isPySpace).reverse).Chain'
      (fun a b => ¬(isPySpace a = true ∧ isPySpace b = true)) := by
    rw [List.chain'_reverse]
    exact h1.imp fun a b hab => by rintro ⟨hx, hy⟩; exact hab ⟨hy, hx⟩
  have h3 := h2.suffix (List.dropWhile_suffix isPySpace)
  rw [List.chain'_reverse]
  exact h3.imp fun a b hab => by rintro ⟨hx, hy⟩; exact hab ⟨hy, hx⟩

theorem pyStrip_head_not_space {l : List Char} {c : Char}
    (hc : (pyStrip l).head? = some c) : isPySpace c = false := by
  rw [pyStrip, List.head?_reverse] at hc
  rcases getLast?_dropWhile isPySpace (l.dropWhile isPySpace).reverse with h | h
  · rw [h] at hc; cases hc
  · rw [h, List.getLast?_reverse] at hc
    exact head?_dropWhile_not isPySpace l c hc

theorem pyStrip_getLast_not_space {l : List Char} {c : Char}
    (hc : (pyStrip l).getLast? = some c) : isPySpace c = false := by
  rw [pyStrip, List.getLast?_reverse] at hc
  exact head?_dropWhile_not isPySpace _ c hc

theorem normShape_norm (u : Char → List Char) (s : Option (List Char)) :
    NormShape (norm u s) := by
  cases s with
  | none =>
    refine ⟨?_, ?_, ?_, ?_⟩ <;> simp [norm, NormShape]
  | some t =>
    rw [norm]
    refine ⟨?_, ?_, ?_, ?_⟩
    · intro c hc
      have hc2 := pyStrip_subset hc
      rcases squashWsAux_mem _ _ _ hc2 with ⟨hmem, hns⟩ | rfl
      · left
        have hk := subBadRunsAux_mem _ _ _ hmem
        rw [isKeepChar, hns] at hk
        rw [isNormChar]
        simpa using hk
      · right; rfl
    · have hch := squashWsAux_chain'
        (subBadRunsAux false ((t.flatMap u).map pyLowerChar)) false
      exact (pyStrip_chain' hch).imp fun a b hab => by
        rintro ⟨rfl, rfl⟩
        exact hab ⟨by decide, by decide⟩
    · intro hh
      have := pyStrip_head_not_space hh
      cases this
    · intro hh
      have := pyStrip_getLast_not_space hh
      cases this

/-! ### Idempotence of the normalizer -/

theorem flatMap_id_of (u : Char → List Char) :
    ∀ l : List Char, (∀ c ∈ l, u c = [c]) → l.flatMap u = l := by
  intro l
  induction l with
  | nil => intro _; rfl
  | cons x xs ih =>
    intro h
    rw [List.flatMap_cons, h x (List.mem_cons.mpr (.inl rfl)),
      ih fun c hc => h c (List.mem_cons.mpr (.inr hc))]
    rfl

theorem pyLowerChar_id_of {c : Char} (h : isNormChar c = true ∨ c = ' ') :
    pyLowerChar c = c := by
  rw [pyLowerChar, if_neg]
  rcases h with h | rfl
  · rw [isNormChar, isLowerAZ, isDigit09] at h
    simp only [Bool.or_eq_true, Bool.and_eq_true, decide_eq_true_eq] at h
    omega
  · intro hsp
    revert hsp
    decide

theorem map_pyLower_id_of :
    ∀ l : List Char, (∀ c ∈ l, isNormChar c = true ∨ c = ' ') →
      l.map pyLowerChar = l := by
  intro l
  induction l with
  | nil => intro _; rfl
  | cons x xs ih =>
    intro h
    rw [List.map_cons, pyLowerChar_id_of (h x (List.mem_cons.mpr (.inl rfl))),
      ih fun c hc => h c (List.mem_cons.mpr (.inr hc))]

theorem isKeepChar_of_shape {c : Char} (h : isNormChar c = true ∨ c = ' ') :
    isKeepChar c = true := by
  rcases h with h | rfl
  · rw [isNormChar] at h
    simp only [Bool.or_eq_true] at h
    rw [isKeepChar]
    rcases h with h1 | h1 <;> simp [h1]
  · decide

theorem subBadRunsAux_id_of :
    ∀ l : List Char, (∀ c ∈ l, isKeepChar c = true) →
      ∀ b : Bool, subBadRunsAux b l = l := by
  intro l
  induction l with
  | nil => intro _ b; rfl
  | cons x xs ih =>
    intro h b
    rw [subBadRunsAux, if_pos (h x (List.mem_cons.mpr (.inl rfl))),
      ih fun c hc => h c (List.mem_cons.mpr (.inr hc))]

theorem squashWsAux_id_of :
    ∀ l : List Char, (∀ c ∈ l, isPySpace c = true → c = ' ') →
      l.Chain' (fun a b => ¬(a = ' ' ∧ b = ' ')) →
      squashWsAux false l = l ∧
        ((∀ c, l.head? = some c → isPySpace c = false) →
          squashWsAux true l = l) := by
  intro l
  induction l with
  | nil => intro _ _; exact ⟨rfl, fun _ => rfl⟩
  | cons x xs ih =>
    intro hsp hch
    obtain ⟨ih1, ih2⟩ := ih (fun c hc => hsp c (List.mem_cons.mpr (.inr hc)))
      hch.tail
    constructor
    · rw [squashWsAux]
      by_cases hx : isPySpace x
      · have hx' : x = ' ' := hsp x (List.mem_cons.mpr (.inl rfl)) hx
        rw [if_pos hx, if_neg (by simp)]
        subst hx'
        have hhead : ∀ c, xs.head? = some c → isPySpace c = false := by
          intro c hc
          have hnot := (List.chain'_cons'.mp hch).1 c hc
          by_contra hcs
          rw [Bool.not_eq_false] at hcs
          exact hnot ⟨rfl, hsp c (List.mem_cons.mpr (.inr
            (List.mem_of_mem_head? (by rw [hc]; rfl)))) hcs⟩
        rw [ih2 hhead]
      · rw [if_neg hx, ih1]
    · intro hhead
      rw [squashWsAux]
      by_cases hx : isPySpace x
      · have := hhead x (by rw [List.head?_cons])
        rw [hx] at this
        cases this
      · rw [if_neg hx, ih1]

theorem dropWhile_eq_self_of (p : Char → Bool) :
    ∀ l : List Char, (∀ c, l.head? = some c → p c = false) →
      l.dropWhile p = l := by
  intro l
  induction l with
  | nil => intro _; rfl
  | cons x xs _ =>
    intro h
    rw [List.dropWhile_cons, if_neg]
    rw [h x (by rw [List.head?_cons])]
    simp

theorem pyStrip_id_of (l : List Char)
    (hh : ∀ c, l.head? = some c → isPySpace c = false)
    (hl : ∀ c, l.getLast? = some c → isPySpace c = false) : pyStrip l = l := by
  rw [pyStrip, dropWhile_eq_self_of _ _ hh,
    dropWhile_eq_self_of _ _ (fun c hc => hl c (by rwa [List.head?_reverse] at hc)),
    List.reverse_reverse]

theorem shape_head_not_space {l : List Char} (hsh : NormShape l) :
    ∀ c, l.head? = some c → isPySpace c = false := by
  intro c hc
  obtain ⟨hchars, -, hhead, -⟩ := hsh
  have hcm : c ∈ l := List.mem_of_mem_head? (by rw [hc]; rfl)
  rcases hchars c hcm with h | rfl
  · rw [isNormChar, isLowerAZ, isDigit09] at h
    simp only [Bool.or_eq_true, Bool.and_eq_true, decide_eq_true_eq] at h
    have hns : ¬(isPySpace c = true) := by
      rw [isPySpace]
      simp only [Bool.or_eq_true, decide_eq_true_eq]
      omega
    rw [Bool.not_eq_true] at hns
    exact hns
  · exact absurd hc hhead

theorem shape_getLast_not_space {l : List Char} (hsh : NormShape l) :
    ∀ c, l.getLast? = some c → isPySpace c = false := by
  intro c hc
  obtain ⟨hchars, -, -, hlast⟩ := hsh
  have hcm : c ∈ l := List.mem_of_mem_getLast? (by rw [hc]; rfl)
  rcases hchars c hcm with h | rfl
  · rw [isNormChar, isLowerAZ, isDigit09] at h
    simp only [Bool.or_eq_true, Bool.and_eq_true, decide_eq_true_eq] at h
    have hns : ¬(isPySpace c = true) := by
      rw [isPySpace]
      simp only [Bool.or_eq_true, decide_eq_true_eq]
      omega
    rw [Bool.not_eq_true] at hns
    exact hns
  · exact absurd hc hlast

theorem norm_norm (u : Char → List Char)
    (hu : ∀ c, (isNormChar c = true ∨ c = ' ') → u c = [c])
    (s : Option (List Char)) :
    norm u (some (norm u s)) = norm u s := by
  have hsh := normShape_norm u s
  obtain ⟨hchars, hchain, -, -⟩ := hsh
  rw [norm]
  rw [flatMap_id_of u _ fun c hc => hu c (hchars c hc)]
  rw [map_pyLower_id_of _ hchars]
  rw [subBadRunsAux_id_of _ (fun c hc => isKeepChar_of_shape (hchars c hc)) false]
  have hsp : ∀ c ∈ norm u s, isPySpace c = true → c = ' ' := by
    intro c hc hcs
    rcases hchars c hc with h | rfl
    · rw [isNormChar, isLowerAZ, isDigit09] at h
      simp only [Bool.or_eq_true, Bool.and_eq_true, decide_eq_true_eq] at h
      rw [isPySpace] at hcs
      simp only [Bool.or_eq_true, decide_eq_true_eq] at hcs
      omega
    · rfl
  rw [(squashWsAux_id_of _ hsp hchain).1]
  exact pyStrip_id_of _ (shape_head_not_space (normShape_norm u s))
    (shape_getLast_not_space (normShape_norm u s))

/-! ### Keyspace construction -/

theorem mkBrandKey_key_norm (u : Char → List Char) (r : BrandRow) :
    (mkBrandKey u r).key_norm = norm u (some (r.key.getD [])) := rfl

theorem mkBrandKey_key_compact (u : Char → List Char) (r : BrandRow) :
    (mkBrandKey u r).key_compact = compact (norm u (some (r.key.getD []))) := rfl

theorem mkBrandKey_brand (u : Char → List Char) (r : BrandRow) :
    (mkBrandKey u r).brand = r.brand := rfl

theorem mem_dedupAux :
    ∀ (l : List BrandKey) (seen : List (List Char × List Char)) (k : BrandKey),
      k ∈ dedupAux seen l → k ∈ l := by
  intro l
  induction l with
  | nil => intro seen k hk; cases hk
  | cons x xs ih =>
    intro seen k hk
    rw [dedupAux] at hk
    split_ifs at hk with h1
    · exact List.mem_cons.mpr (.inr (ih _ k hk))
    · rcases List.mem_cons.mp hk with rfl | hk
      · exact List.mem_cons.mpr (.inl rfl)
      · exact List.mem_cons.mpr (.inr (ih _ k hk))

theorem dedupAux_not_seen :
    ∀ (l : List BrandKey) (seen : List (List Char × List Char)) (k : BrandKey),
      k ∈ dedupAux seen l → (k.brand, k.key_norm) ∉ seen := by
  intro l
  induction l with
  | nil => intro seen k hk; cases hk
  | cons x xs ih =>
    intro seen k hk
    rw [dedupAux] at hk
    split_ifs at hk with h1
    · exact ih _ k hk
    · rcases List.mem_cons.mp hk with rfl | hk
      · exact h1
      · intro hs
        exact ih _ k hk (List.mem_cons.mpr (.inr hs))

theorem dedupAux_sublist :
    ∀ (l : List BrandKey) (seen : List (List Char × List Char)),
      (dedupAux seen l).Sublist l := by
  intro l
  induction l with
  | nil => intro seen; rw [dedupAux]
  | cons x xs ih =>
    intro seen
    rw [dedupAux]
    split_ifs with h1
    · exact (ih seen).cons x
    · exact (ih _).cons₂ x

theorem dedupAux_pairwise :
    ∀ (l : List BrandKey) (seen : List (List Char × List Char)),
      (dedupAux seen l).Pairwise
        (fun a b => ¬(a.brand = b.brand ∧ a.key_norm = b.key_norm)) := by
  intro l
  induction l with
  | nil => intro seen; rw [dedupAux]; exact List.Pairwise.nil
  | cons x xs ih =>
    intro seen
    rw [dedupAux]
    split_ifs with h1
    · exact ih seen
    · refine List.Pairwise.cons ?_ (ih _)
      intro y hy
      have hns := dedupAux_not_seen _ _ _ hy
      rintro ⟨hb, hk⟩
      exact hns (List.mem_cons.mpr (.inl (by rw [hb, hk])))

theorem dedupAux_find? :
    ∀ (l : List BrandKey) (seen : List (List Char × List Char)) (k : BrandKey),
      k ∈ dedupAux seen l →
        l.find? (fun x => decide (x.brand = k.brand ∧ x.key_norm = k.key_norm))
          = some k := by
  intro l
  induction l with
  | nil => intro seen k hk; cases hk
  | cons x xs ih =>
    intro seen k hk
    rw [dedupAux] at hk
    split_ifs at hk with h1
    · -- `x`'s pair was seen, `k`'s was not, so they differ
      have hns := dedupAux_not_seen _ _ _ hk
      have hne : decide (x.brand = k.brand ∧ x.key_norm = k.key_norm) = false := by
        simp only [decide_eq_false_iff_not]
        rintro ⟨hb, hkn⟩
        exact hns (by rw [← hb, ← hkn]; exact h1)
      rw [List.find?_cons, hne]
      exact ih _ k hk
    · rcases List.mem_cons.mp hk with rfl | hk
      · rw [List.find?_cons, (by simp : decide (k.brand = k.brand ∧ k.key_norm = k.key_norm) = true)]
      · have hns := dedupAux_not_seen _ _ _ hk
        have hne : decide (x.brand = k.brand ∧ x.key_norm = k.key_norm) = false := by
          simp only [decide_eq_false_iff_not]
          rintro ⟨hb, hkn⟩
          exact hns (List.mem_cons.mpr (.inl (by rw [hb, hkn])))
        rw [List.find?_cons, hne]
        exact ih _ k hk

theorem dedupAux_complete :
    ∀ (l : List BrandKey) (seen : List (List Char × List Char)) (x : BrandKey),
      x ∈ l → (x.brand, x.key_norm) ∉ seen →
        ∃ y ∈ dedupAux seen l, y.brand = x.brand ∧ y.key_norm = x.key_norm := by
  intro l
  induction l with
  | nil => intro seen x hx; cases hx
  | cons z xs ih =>
    intro seen x hx hns
    rw [dedupAux]
    split_ifs with h1
    · rcases List.mem_cons.mp hx with rfl | hx
      · exact absurd h1 hns
      · exact ih seen x hx hns
    · rcases List.mem_cons.mp hx with rfl | hx
      · exact ⟨x, List.mem_cons.mpr (.inl rfl), rfl, rfl⟩
      · by_cases hsame : (x.brand, x.key_norm) = (z.brand, z.key_norm)
        · refine ⟨z, List.mem_cons.mpr (.inl rfl), ?_, ?_⟩
          · exact (congrArg Prod.fst hsame).symm
          · exact (congrArg Prod.snd hsame).symm
        · obtain ⟨y, hy, hyeq⟩ := ih ((z.brand, z.key_norm) :: seen) x hx
            (by
              intro hmem
              rcases List.mem_cons.mp hmem with h | h
              · exact hsame h
              · exact hns h)
          exact ⟨y, List.mem_cons.mpr (.inr hy), hyeq⟩

theorem mem_keyspacePre_props {u : Char → List Char} {rows : List BrandRow}
    {k : BrandKey} (hk : k ∈ keyspacePre u rows) :
    (∃ r ∈ rows, k = mkBrandKey u r) ∧ k.key_norm ≠ [] ∧ k.brand ≠ [] := by
  rw [keyspacePre] at hk
  obtain ⟨hmem, hcond⟩ := List.mem_filter.mp hk
  simp only [Bool.and_eq_true, decide_eq_true_eq] at hcond
  obtain ⟨r, hr, hrk⟩ := List.mem_map.mp hmem
  exact ⟨⟨r, hr, hrk.symm⟩, hcond.1, hcond.2⟩

theorem compact_ne_nil {l : List Char} (hsh : NormShape l) (hne : l ≠ []) :
    compact l ≠ [] := by
  obtain ⟨c, cs, rfl⟩ := List.exists_cons_of_ne_nil hne
  rw [compact, if_neg hne]
  intro hemp
  have hc := shape_head_not_space hsh c (by rw [List.head?_cons])
  have hcne : c ≠ ' ' := by
    intro hcsp
    rw [hcsp] at hc
    cases hc
  have hcm : c ∈ List.filter (fun c => decide (c ≠ ' ')) (c :: cs) :=
    List.mem_filter.mpr ⟨List.mem_cons.mpr (.inl rfl), by simp [hcne]⟩
  rw [hemp] at hcm
  cases hcm

theorem keyspace_entry_nonempty {u : Char → List Char} {rows : List BrandRow}
    {k : BrandKey} (hk : k ∈ build_brand_keyspace u rows) :
    k.key_norm ≠ [] ∧ k.key_compact ≠ [] := by
  obtain ⟨⟨r, -, rfl⟩, hkn, -⟩ :=
    mem_keyspacePre_props (mem_dedupAux _ _ _ hk)
  refine ⟨hkn, ?_⟩
  rw [mkBrandKey_key_compact]
  rw [mkBrandKey_key_norm] at hkn
  exact compact_ne_nil (normShape_norm u (some (r.key.getD []))) hkn

/-! ### The aggregator's unmatched extract -/

theorem mem_insertByScore {x r : AggRow} :
    ∀ l : List AggRow, x ∈ insertByScore r l ↔ x = r ∨ x ∈ l := by
  intro l
  induction l with
  | nil => rw [insertByScore]; simp
  | cons y ys ih =>
    rw [insertByScore]
    split_ifs with h1
    · simp
    · rw [List.mem_cons, ih, List.mem_cons]
      tauto

theorem mem_sortByScoreDesc {x : AggRow} :
    ∀ l : List AggRow, x ∈ sortByScoreDesc l ↔ x ∈ l := by
  intro l
  induction l with
  | nil => rw [sortByScoreDesc]
  | cons y ys ih =>
    rw [sortByScoreDesc, mem_insertByScore, ih, List.mem_cons]

theorem mem_unmatched_extract {rows : List AggRow} {r : AggRow} :
    r ∈ unmatched_extract rows ↔ r ∈ rows ∧ r.brand = noBrand := by
  rw [unmatched_extract, mem_sortByScoreDesc, List.mem_filter]
  simp [beq_iff_eq]

/-! ### The emission step -/

theorem emit_not_accepted {t : ℚ} {b : Best} (h : accepted t b = false) :
    emit t b = ⟨noBrand, b.score, b.key⟩ := by
  rw [accepted] at h
  rw [emit]
  cases hb : b.brand with
  | none => rfl
  | some br =>
    rw [hb] at h
    simp only [Option.isSome_some, Bool.true_and, decide_eq_false_iff_not] at h
    exact if_neg h

theorem best_brand_key_none_iff (ln lc : List Char) (ks : List BrandKey) :
    (best_brand ln lc ks).key = none ↔
      ∀ k ∈ candidates_for ln lc ks,
        score_listing_against_key ln lc k.key_norm k.key_compact ≤ 0 := by
  rw [best_brand, bestFold, bestFold_key_none_iff]
  simp

/-! ### Claims -/

/-- C1, counterexample: for the listing with normalized text `"ab"` and the
keyspace `[(X, "abc"), (Y, "a")]`, the shortlist keeps only `(Y, "a")`
(`"abc"` is not a substring of `"ab"`), so the shortlisted run selects
brand `Y`; the full scan scores `(X, "abc")` first with
`partial_ratio("ab", "abc") = 100` and keeps it on the tie, selecting
brand `X`.  The best-match results (chosen brand and matched key) differ,
refuting the claim that shortlisting never changes the result. -/
theorem C1_counterexample :
    best_brand ['a', 'b'] ['a', 'b']
        [⟨['X'], ['a', 'b', 'c'], ['a', 'b', 'c']⟩, ⟨['Y'], ['a'], ['a']⟩] ≠
      best_brand_full_scan ['a', 'b'] ['a', 'b']
        [⟨['X'], ['a', 'b', 'c'], ['a', 'b', 'c']⟩, ⟨['Y'], ['a'], ['a']⟩] := by
  decide

/-- C1 (amended): for every listing and every brand keyspace whose entries
have non-empty normalized and compact keys (as every keyspace built by
`build_brand_keyspace` does), the best-match **score** computed with the
substring shortlist (falling back to the full keyspace when the shortlist
is empty) equals the best-match score computed by scoring every key in the
full keyspace; the chosen brand and matched key may differ when several
keys tie at the top score. -/
theorem C1_score_refinement (ln lc : List Char) (ks : List BrandKey)
    (hks : ∀ k ∈ ks, k.key_norm ≠ [] ∧ k.key_compact ≠ []) :
    (best_brand ln lc ks).score = (best_brand_full_scan ln lc ks).score :=
  best_score_shortlist_eq ln lc ks hks

/-- C1 witness: the amended statement evaluated at the counterexample's
listing and keyspace. -/
theorem C1_score_refinement_witness :
    (best_brand ['a', 'b'] ['a', 'b']
        [⟨['X'], ['a', 'b', 'c'], ['a', 'b', 'c']⟩, ⟨['Y'], ['a'], ['a']⟩]).score =
      (best_brand_full_scan ['a', 'b'] ['a', 'b']
        [⟨['X'], ['a', 'b', 'c'], ['a', 'b', 'c']⟩, ⟨['Y'], ['a'], ['a']⟩]).score :=
  C1_score_refinement ['a', 'b'] ['a', 'b']
    [⟨['X'], ['a', 'b', 'c'], ['a', 'b', 'c']⟩, ⟨['Y'], ['a'], ['a']⟩]
    (by decide)

/-- C2: the similarity scorer returns exactly the maximum of the three
metrics (partial-ratio on normalized forms, token-set-ratio on normalized
forms, partial-ratio on compact forms), and the score always lies in
[0, 100]; but on the listing `"ab cd"` against the key `"ab ce"` the
returned score is `800/9 ≈ 88.89`, which is not an integer — exhibiting
the failing input for the claim's (and the source annotation's) assertion
that the score is an integer.  (`rapidfuzz.fuzz` functions return floats;
the source's `-> int` annotations are not what the code computes.) -/
theorem C2_score_max_of_three_not_integer :
    (∀ ln lc kn kc : List Char,
        score_listing_against_key ln lc kn kc =
          max (windowSim ln kn) (max (tokenSetSim ln kn) (windowSim lc kc)) ∧
        0 ≤ score_listing_against_key ln lc kn kc ∧
        score_listing_against_key ln lc kn kc ≤ 100) ∧
    score_listing_against_key ['a', 'b', ' ', 'c', 'd'] ['a', 'b', 'c', 'd']
        ['a', 'b', ' ', 'c', 'e'] ['a', 'b', 'c', 'e'] = mkRat 800 9 ∧
    (mkRat 800 9).den = 9 :=
  ⟨fun ln lc kn kc =>
      ⟨rfl, score_nonneg ln lc kn kc, score_le_hundred ln lc kn kc⟩,
    by decide, by decide⟩

/-- C3, counterexample: the builder only drops rows whose brand is the
empty string (`out["brand"] != ""`); a brand consisting of a single space
is blank but non-empty, so the row `(" ", "x")` survives into the
keyspace, refuting the claim that no entry has a blank brand. -/
theorem C3_counterexample :
    build_brand_keyspace uId [⟨[' '], some ['x']⟩] = [⟨[' '], ['x'], ['x']⟩] ∧
    ([' '] : List Char) ≠ [] ∧
    (∀ c ∈ ([' '] : List Char), isPySpace c = true) :=
  ⟨by decide, by decide, by decide⟩

/-- C3 (amended): for every input brand table, the built keyspace contains
no entry whose normalized key is empty and no entry whose brand is the
empty string (brands that are blank but non-empty are retained), and it is
unique on (brand, normalized_key) with duplicates resolved by keeping the
first occurrence in input-row order: the keyspace is a sublist of the
filtered rows (input order preserved), pairwise distinct on
(brand, normalized_key), each kept entry is the first filtered row with
its (brand, normalized_key), and every filtered row's
(brand, normalized_key) is represented. -/
theorem C3_keyspace_invariants (u : Char → List Char) (rows : List BrandRow) :
    (∀ k ∈ build_brand_keyspace u rows, k.key_norm ≠ [] ∧ k.brand ≠ []) ∧
    (build_brand_keyspace u rows).Sublist (keyspacePre u rows) ∧
    (build_brand_keyspace u rows).Pairwise
      (fun a b => ¬(a.brand = b.brand ∧ a.key_norm = b.key_norm)) ∧
    (∀ k ∈ build_brand_keyspace u rows,
      (keyspacePre u rows).find?
        (fun x => decide (x.brand = k.brand ∧ x.key_norm = k.key_norm))
        = some k) ∧
    (∀ x ∈ keyspacePre u rows, ∃ y ∈ build_brand_keyspace u rows,
      y.brand = x.brand ∧ y.key_norm = x.key_norm) := by
  refine ⟨?_, dedupAux_sublist _ _, dedupAux_pairwise _ _, ?_, ?_⟩
  · intro k hk
    obtain ⟨-, h1, h2⟩ := mem_keyspacePre_props (mem_dedupAux _ _ _ hk)
    exact ⟨h1, h2⟩
  · intro k hk
    exact dedupAux_find? _ _ k hk
  · intro x hx
    exact dedupAux_complete _ [] x hx (by simp)

/-- C3 witness: the amended invariants evaluated on a table with a
duplicate row. -/
theorem C3_keyspace_invariants_witness :
    (build_brand_keyspace uId
        [⟨['b'], some ['x']⟩, ⟨['b'], some ['x']⟩]).Pairwise
      (fun a b => ¬(a.brand = b.brand ∧ a.key_norm = b.key_norm)) :=
  (C3_keyspace_invariants uId [⟨['b'], some ['x']⟩, ⟨['b'], some ['x']⟩]).2.2.1

/-- C4: `normalize` is idempotent, `normalize(normalize(x)) = normalize(x)`
for all text `x`, for every per-character transliteration `u` that is the
identity on the characters that can appear in normalized output (lower-case
ASCII letters, digits and the space) — which `unidecode`, the identity on
ASCII, is. -/
theorem C4_norm_idem (u : Char → List Char)
    (hu : ∀ c, (isNormChar c = true ∨ c = ' ') → u c = [c])
    (x : Option (List Char)) :
    norm u (some (norm u x)) = norm u x :=
  norm_norm u hu x

/-- C4 witness: idempotence at a concrete string containing upper case,
punctuation and repeated whitespace, with the identity transliteration. -/
theorem C4_norm_idem_witness :
    norm uId (some (norm uId (some ['A', '!', 'b', ' ', ' ', 'c']))) =
      norm uId (some ['A', '!', 'b', ' ', ' ', 'c']) :=
  C4_norm_idem uId (fun _ _ => rfl) (some ['A', '!', 'b', ' ', ' ', 'c'])

/-- C5: for every input text (and every transliteration map), the output
of `normalize` consists only of lower-case ASCII letters, digits and
spaces, with no two consecutive spaces and no leading or trailing
space. -/
theorem C5_norm_shape (u : Char → List Char) (s : Option (List Char)) :
    NormShape (norm u s) :=
  normShape_norm u s

/-- C5 witness: the shape of the normalized form of a concrete messy
string. -/
theorem C5_norm_shape_witness :
    NormShape (norm uId (some ['A', '!', '!', 'b', ' ', ' ', 'c', ' '])) :=
  C5_norm_shape uId (some ['A', '!', '!', 'b', ' ', ' ', 'c', ' '])

/-- C6: acceptance is monotonic in the threshold: for a fixed listing and
keyspace, if the listing is matched under threshold `t2` then it is
matched under any threshold `t1 ≤ t2`. -/
theorem C6_threshold_monotone (ln lc : List Char) (ks : List BrandKey)
    (t1 t2 : ℚ) (h12 : t1 ≤ t2)
    (h2 : accepted t2 (best_brand ln lc ks) = true) :
    accepted t1 (best_brand ln lc ks) = true := by
  rw [accepted] at h2 ⊢
  simp only [Bool.and_eq_true, decide_eq_true_eq] at h2 ⊢
  exact ⟨h2.1, le_trans h12 h2.2⟩

/-- C6 witness: a listing matched at threshold 85 is matched at
threshold 80. -/
theorem C6_threshold_monotone_witness :
    accepted 80 (best_brand ['a'] ['a'] [⟨['B'], ['a'], ['a']⟩]) = true :=
  C6_threshold_monotone ['a'] ['a'] [⟨['B'], ['a'], ['a']⟩] 80 85
    (by norm_num) (by decide)

/-- C7: if the built keyspace is empty, every listing resolves to the
`"no brand"` sentinel with score 0 and no matched key; the matcher is a
total function, so no error is raised. -/
theorem C7_empty_keyspace (u : Char → List Char) (t : ℚ)
    (raw : Option (List Char)) :
    matchOne u t [] raw = ⟨noBrand, 0, none⟩ ∧
    ∀ ln lc : List Char, emit t (best_brand ln lc []) = ⟨noBrand, 0, none⟩ :=
  ⟨rfl, fun _ _ => rfl⟩

/-- C8: the matcher emits exactly one `MatchResult` per listing row
(totality: `matchAll` is length-preserving), and on the "unmatched"
branch the emitted record still carries the best score found over the
scored candidates and the best candidate's normalized key, the key being
absent exactly when no candidate scored above 0. -/
theorem C8_one_result_per_listing (u : Char → List Char) (t : ℚ)
    (ks : List BrandKey) (rows : List (Option (List Char))) :
    (matchAll u t ks rows).length = rows.length ∧
    ∀ ln lc : List Char, accepted t (best_brand ln lc ks) = false →
      emit t (best_brand ln lc ks) =
        ⟨noBrand, (best_brand ln lc ks).score, (best_brand ln lc ks).key⟩ ∧
      (best_brand ln lc ks).score =
        (candidates_for ln lc ks).foldl
          (fun m k => max m
            (score_listing_against_key ln lc k.key_norm k.key_compact)) 0 ∧
      ((best_brand ln lc ks).key = none ↔
        ∀ k ∈ candidates_for ln lc ks,
          score_listing_against_key ln lc k.key_norm k.key_compact ≤ 0) := by
  refine ⟨by rw [matchAll, List.length_map], ?_⟩
  intro ln lc hacc
  exact ⟨emit_not_accepted hacc,
    bestFold_score_eq ln lc (candidates_for ln lc ks) ⟨none, 0, none⟩,
    best_brand_key_none_iff ln lc ks⟩

/-- C8 witness: an unmatched listing's emitted record carries the best
score and key. -/
theorem C8_one_result_per_listing_witness :
    emit 85 (best_brand ['q'] ['q'] [⟨['B'], ['z'], ['z']⟩]) =
      ⟨noBrand, (best_brand ['q'] ['q'] [⟨['B'], ['z'], ['z']⟩]).score,
        (best_brand ['q'] ['q'] [⟨['B'], ['z'], ['z']⟩]).key⟩ :=
  ((C8_one_result_per_listing uId 85 [⟨['B'], ['z'], ['z']⟩] []).2
    ['q'] ['q'] (by decide)).1

/-- C9: every entry of a built keyspace has a non-empty normalized key and
a non-empty compact key (a non-empty normalized key always contains a
non-space character), so the shortlist's substring test never runs against
an empty compact key — which would trivially match every listing, as the
second conjunct records. -/
theorem C9_compact_keys_nonempty (u : Char → List Char) (rows : List BrandRow) :
    (∀ k ∈ build_brand_keyspace u rows,
      k.key_norm ≠ [] ∧ k.key_compact ≠ []) ∧
    ∀ lc : List Char, isSubstr [] lc = true := by
  refine ⟨fun _ hk => keyspace_entry_nonempty hk, ?_⟩
  intro lc
  rw [isSubstr, List.any_eq_true]
  refine ⟨0, ?_, by simp⟩
  rw [List.mem_range]
  omega

/-- C9 witness: the compact key of the entry built from the row
`("b", "x")` is non-empty. -/
theorem C9_compact_keys_nonempty_witness :
    (⟨['b'], ['x'], ['x']⟩ : BrandKey).key_compact ≠ [] :=
  ((C9_compact_keys_nonempty uId [⟨['b'], some ['x']⟩]).1
    ⟨['b'], ['x'], ['x']⟩ (by decide)).2

/-- C10: the aggregator's unmatched-for-review extract contains exactly
the rows whose brand column equals the string `"no brand"`; consequently a
listing genuinely matched (score 100, accepted at threshold 85) to a
reference brand literally named `"no brand"` produces a row that is
indistinguishable from the unmatched sentinel and lands in the unmatched
extract, as the concrete conjuncts show. -/
theorem C10_unmatched_extract_eq (rows : List AggRow) (r : AggRow) :
    (r ∈ unmatched_extract rows ↔ r ∈ rows ∧ r.brand = noBrand) ∧
    emit 85 (best_brand ['a', 'c', 'm', 'e'] ['a', 'c', 'm', 'e']
        [⟨noBrand, ['a', 'c', 'm', 'e'], ['a', 'c', 'm', 'e']⟩]) =
      ⟨noBrand, 100, some ['a', 'c', 'm', 'e']⟩ ∧
    accepted 85 (best_brand ['a', 'c', 'm', 'e'] ['a', 'c', 'm', 'e']
        [⟨noBrand, ['a', 'c', 'm', 'e'], ['a', 'c', 'm', 'e']⟩]) = true ∧
    (⟨noBrand, 100⟩ : AggRow) ∈ unmatched_extract [⟨noBrand, 100⟩] :=
  ⟨mem_unmatched_extract, by decide, by decide, by decide⟩

/-- C10 witness: a sentinel row is in the extract of a mixed table. -/
theorem C10_unmatched_extract_eq_witness :
    (⟨noBrand, 50⟩ : AggRow) ∈
      unmatched_extract [⟨['x'], 10⟩, ⟨noBrand, 50⟩] :=
  ((C10_unmatched_extract_eq [⟨['x'], 10⟩, ⟨noBrand, 50⟩]
      ⟨noBrand, 50⟩).1).mpr ⟨by decide, rfl⟩

end ShopeeMatch
